import Mathlib

/-!
# Verification of the algorithm kernels in the DSA learning hub modules

Each module of the repository animates one textbook algorithm.  This file
gives a shallow embedding of those algorithm kernels (the state mutated by
the timer callbacks is passed explicitly; JavaScript numbers are modelled
as `Int`/`Nat`) and proves the correctness properties stated in the
specification about them.
-/

namespace DSAHub

/-! ## Definitions: BinarySearchModule -/

namespace BinarySearchModule

/-- The module's fixed sorted dataset (`sortedArray` in the source). -/
def sortedArray : List Int :=
  [10, 25, 38, 45, 52, 67, 78, 89, 95, 110, 125, 140, 155, 170, 185, 200]

/-- Observable outcome of one binary-search animation run: the reported
result (`some m` when "Found at index m", `none` for not-found), the number
of mid positions inspected (`stepCount`), and the list of `(low, high)`
pairs passed to the `setLow`/`setHigh` display setters. -/
structure SearchRun where
  result : Option Int
  steps : Nat
  display : List (Int × Int)
  deriving DecidableEq, Repr

/-- The inner `search` loop of `runBinarySearch`: while `l ≤ h`, inspect
`m = l + ⌊(h - l) / 2⌋`; report found when `arr[m] = target`; recurse on
`l = m + 1` when `arr[m] < target` and on `h = m - 1` otherwise. -/
def search (arr : List Int) (target : Int) (l h : Int) : SearchRun :=
  if l > h then ⟨none, 0, []⟩
  else
    let m := l + (h - l) / 2
    let v := arr.getD m.toNat 0
    if v = target then ⟨some m, 1, [(l, h)]⟩
    else if v < target then
      let r := search arr target (m + 1) h
      ⟨r.result, r.steps + 1, (l, h) :: r.display⟩
    else
      let r := search arr target l (m - 1)
      ⟨r.result, r.steps + 1, (l, h) :: r.display⟩
termination_by (h + 1 - l).toNat
decreasing_by all_goals (simp_wf; omega)

/-- `runBinarySearch` starts the loop at `l = 0`, `h = arr.length - 1`. -/
def runBinarySearch (arr : List Int) (target : Int) : SearchRun :=
  search arr target 0 ((arr.length : Int) - 1)

/-- Step-count bound of the search loop on an interval of `s` candidate
positions (proof device): 0 for the empty interval, `⌊log₂ s⌋ + 1`
otherwise. -/
def gBound (s : Nat) : Nat := if s = 0 then 0 else Nat.log 2 s + 1

end BinarySearchModule

/-! ## Definitions: free-text numeric entry parsing

Both the sliding-window and the two-pointers module parse their text field
with `inputStr.split(',').map(s => parseInt(s.trim())).filter(n => !isNaN(n))`
and reject an empty result with a blocking alert, leaving the dataset
unchanged. -/

namespace NumericEntry

/-- `inputStr.split(',')`: split a character list at every comma; the empty
string splits to one empty token, like in JavaScript. -/
def splitOnComma : List Char → List (List Char)
  | [] => [[]]
  | c :: rest =>
    let r := splitOnComma rest
    if c = ',' then [] :: r
    else (c :: r.headD []) :: r.tail

/-- `s.trim()`: drop whitespace from both ends. -/
def trim (s : List Char) : List Char :=
  ((s.dropWhile Char.isWhitespace).reverse.dropWhile Char.isWhitespace).reverse

/-- Numeric value of a list of decimal digit characters. -/
def digitsVal (ds : List Char) : Nat :=
  ds.foldl (fun acc c => acc * 10 + (c.toNat - '0'.toNat)) 0

/-- `parseInt` (radix 10) on an already-trimmed token: an optional sign
followed by a maximal prefix of decimal digits; `none` models `NaN` when
no digit is found. -/
def parseIntJS (s : List Char) : Option Int :=
  let signRest : Int × List Char :=
    match s with
    | '-' :: r => (-1, r)
    | '+' :: r => (1, r)
    | r => (1, r)
  let ds := signRest.2.takeWhile Char.isDigit
  if ds = [] then none
  else some (signRest.1 * digitsVal ds)

/-- The shared parse pipeline: split on commas, trim each token, parse it,
and silently drop the tokens that did not parse (`filter(!isNaN)`). -/
def parseNumbers (input : List Char) : List Int :=
  ((splitOnComma input).map trim).filterMap parseIntJS

end NumericEntry

/-! ## Definitions: TwoPointersModule -/

namespace TwoPointersModule

/-- The module's sample dataset (`SAMPLE_DATA` in the source). -/
def SAMPLE_DATA : List Int := [1001, 1001, 1002, 1003, 1003, 1003, 1004, 1005, 1005]

/-- `handleParse` of the two-pointers module: parse, reject an empty result
(alert, dataset unchanged, `true` flags the alert), otherwise store the
ascending sort `[...arr].sort((a, b) => a - b)` of the parsed tokens. -/
def handleParse (input : List Char) (data : List Int) : List Int × Bool :=
  let arr := NumericEntry.parseNumbers input
  if arr = [] then (data, true)
  else (arr.mergeSort (fun a b => decide (a ≤ b)), false)

/-- One full run of the python animation loop: `r` is `readPointer`, `w` is
`writePointer`; while `r < data.length`, compare `data[r]` with the last
written unique value `processed[w - 1]`; copy to `processed[w]` and advance
`w` when they differ.  Returns the processed array and the final write
pointer. -/
def dedupLoop (data processed : List Int) (w r : Nat) : List Int × Nat :=
  if r < data.length then
    let currentVal := data.getD r 0
    let lastUniqueVal := processed.getD (w - 1) 0
    if currentVal ≠ lastUniqueVal then
      dedupLoop data (processed.set w currentVal) (w + 1) (r + 1)
    else
      dedupLoop data processed w (r + 1)
  else (processed, w)
termination_by data.length - r
decreasing_by all_goals (simp_wf; omega)

/-- The `processedArray` initialisation effect:
`[data[0], ...Array(data.length - 1).fill(0)]` for non-empty data. -/
def initProcessed (data : List Int) : List Int :=
  if data = [] then []
  else data.headD 0 :: List.replicate (data.length - 1) 0

/-- A full animation run: `readPointer` and `writePointer` start at 1. -/
def runDedup (data : List Int) : List Int × Nat :=
  dedupLoop data (initProcessed data) 1 1

/-- The values newly written by the loop after `last` with reads `rest`
still pending (proof device describing the loop's output). -/
def dlAux (last : Int) : List Int → List Int
  | [] => []
  | x :: rest => if x ≠ last then x :: dlAux x rest else dlAux last rest

end TwoPointersModule

/-! ## Definitions: SlidingWindowModule -/

namespace SlidingWindowModule

/-- The module's sample dataset (`SAMPLE_DATA` in the source). -/
def SAMPLE_DATA : List Int := [40, 30, 60, 70, 50, 80, 90, 40, 50]

/-- The fixed window size `WINDOW_SIZE = 3`. -/
def WINDOW_SIZE : Nat := 3

/-- `handleParse` of the sliding-window module: parse, reject an empty
result (alert, dataset unchanged, `true` flags the alert), otherwise store
the parsed tokens as the dataset. -/
def handleParse (input : List Char) (data : List Int) : List Int × Bool :=
  let arr := NumericEntry.parseNumbers input
  if arr = [] then (data, true)
  else (arr, false)

/-- The incrementally maintained window sum of the animation loop at window
start `p`: the first window is summed from scratch, and each slide computes
`sum = previousSum - data[p - 1] + data[p + WINDOW_SIZE - 1]`. -/
def runningSum (data : List Int) : Nat → Int
  | 0 => (data.take WINDOW_SIZE).sum
  | p + 1 => runningSum data p - data.getD p 0 + data.getD (p + WINDOW_SIZE) 0

/-- The brute-force window sum of the Snowflake table view at row `idx`:
`null` for the first `WINDOW_SIZE - 1` rows, otherwise
`data.slice(idx - WINDOW_SIZE + 1, idx + 1).reduce((a, b) => a + b, 0)`. -/
def snowflakeWindowSum (data : List Int) (idx : Nat) : Option Int :=
  if idx < WINDOW_SIZE - 1 then none
  else some (((data.drop (idx + 1 - WINDOW_SIZE)).take ((idx + 1) - (idx + 1 - WINDOW_SIZE))).sum)

end SlidingWindowModule

/-! ## Definitions: HeapModule -/

namespace HeapModule

/-- Job priorities (`'Critical' | 'High' | 'Low'`). -/
inductive JobPriority
  | Critical
  | High
  | Low
  deriving DecidableEq, Repr

/-- `PRIORITY_VALUES`. -/
def PRIORITY_VALUES : JobPriority → Nat
  | .Critical => 3
  | .High => 2
  | .Low => 1

/-- A job record (the display `name` string is omitted; it is derived from
`id`). -/
structure Job where
  id : Nat
  priority : JobPriority
  priorityValue : Nat
  deriving DecidableEq, Repr

/-- Out-of-range array reads never happen in the runs we consider; `getD`
needs a default. -/
def defaultJob : Job := ⟨0, .Low, 0⟩

/-- Priority value stored at index `i` of the heap array. -/
def val (h : List Job) (i : Nat) : Nat :=
  (h.getD i defaultJob).priorityValue

/-- The bubble-up loop of `addJob`: while at index `i > 0` the child's
`priorityValue` exceeds the parent's at `⌊(i - 1) / 2⌋`, swap them and
continue from the parent. -/
def bubbleUp (h : List Job) (i : Nat) : List Job :=
  if i = 0 then h
  else
    let parentIdx := (i - 1) / 2
    if val h parentIdx < val h i then
      bubbleUp ((h.set i (h.getD parentIdx defaultJob)).set parentIdx (h.getD i defaultJob)) parentIdx
    else h
termination_by i
decreasing_by all_goals (simp_wf; omega)

/-- Component state of the heap module touched by `addJob`. -/
structure HeapState where
  heap : List Job
  nextJobId : Nat
  deriving Repr

/-- `addJob`: append the new job to the heap array and run the bubble-up
loop from the last index to completion. -/
def addJob (s : HeapState) (p : JobPriority) : HeapState :=
  let job : Job := ⟨s.nextJobId, p, PRIORITY_VALUES p⟩
  let newHeap := s.heap ++ [job]
  ⟨bubbleUp newHeap (newHeap.length - 1), s.nextJobId + 1⟩

/-- The initial component state: empty heap, `nextJobId = 1`. -/
def initialState : HeapState := ⟨[], 1⟩

/-- A sequence of `addJob` clicks starting from the empty heap. -/
def addJobs (ps : List JobPriority) : HeapState :=
  ps.foldl addJob initialState

/-- The max-heap invariant: every non-root entry's `priorityValue` is at
most its parent's. -/
def heapInv (h : List Job) : Prop :=
  ∀ i, 0 < i → i < h.length → val h i ≤ val h ((i - 1) / 2)

/-- `popJob`: no-op on the empty heap; on a singleton the heap empties;
otherwise the root is overwritten with the last element and the last slot
is popped.  No bubble-down is performed. -/
def popJob (h : List Job) : List Job :=
  if h.length = 0 then h
  else if h.length = 1 then []
  else (h.set 0 (h.getD (h.length - 1) defaultJob)).dropLast

/-- Invariant broken part-way through a bubble-up: the heap property holds
at every index except possibly `i`, and the children of `i` are already
bounded by the value at `i`'s parent (proof device). -/
def almostInv (h : List Job) (i : Nat) : Prop :=
  (∀ j, 0 < j → j < h.length → j ≠ i → val h j ≤ val h ((j - 1) / 2)) ∧
  (0 < i → ∀ j, j < h.length → (j - 1) / 2 = i → j ≠ i → val h j ≤ val h ((i - 1) / 2))

end HeapModule

/-! ## Definitions: StacksQueuesModule -/

namespace StacksQueuesModule

/-- `MAX_QUEUE_SIZE`. -/
def MAX_QUEUE_SIZE : Nat := 8

/-- `BACKPRESSURE_THRESHOLD`. -/
def BACKPRESSURE_THRESHOLD : Nat := 6

/-- `mode : 'stack' | 'queue'`. -/
inductive Mode
  | stack
  | queue
  deriving DecidableEq, Repr

/-- Execution-log entries (the source appends template strings; we record
their discriminating content). -/
inductive LogEntry
  | backpressureFull
  | added (id : Nat)
  | processed (id : Nat)
  deriving DecidableEq, Repr

/-- `setExecutionLog(log => [...log, entry].slice(-4))`. -/
def pushLog (log : List LogEntry) (e : LogEntry) : List LogEntry :=
  let l := log ++ [e]
  l.drop (l.length - 4)

/-- Component state of the stacks/queues module. -/
structure QState where
  mode : Mode
  jobs : List Nat
  processedJobs : List Nat
  nextJobId : Nat
  backpressureAlert : Bool
  executionLog : List LogEntry
  queueDepthHistory : List (Nat × Nat)
  currentTime : Nat
  deriving DecidableEq, Repr

/-- The initial component state. -/
def initState : QState := ⟨.queue, [], [], 1, false, [], [], 0⟩

/-- `addJob`: when the jobs list already holds `MAX_QUEUE_SIZE` entries the
job is refused — only the backpressure alert and a log entry are emitted;
otherwise the job id is appended and the id counter advances. -/
def addJob (s : QState) : QState :=
  if MAX_QUEUE_SIZE ≤ s.jobs.length then
    { s with backpressureAlert := true,
             executionLog := pushLog s.executionLog .backpressureFull }
  else
    { s with jobs := s.jobs ++ [s.nextJobId],
             executionLog := pushLog s.executionLog (.added s.nextJobId),
             nextJobId := s.nextJobId + 1,
             backpressureAlert := false }

/-- `processJob`: LIFO pop from the end in stack mode, FIFO shift from the
front in queue mode; no-op when empty. -/
def processJob (s : QState) : QState :=
  if s.jobs = [] then s
  else
    match s.mode with
    | .stack =>
      let p := s.jobs.getD (s.jobs.length - 1) 0
      { s with jobs := s.jobs.dropLast,
               processedJobs := s.processedJobs ++ [p],
               executionLog := pushLog s.executionLog (.processed p) }
    | .queue =>
      let p := s.jobs.getD 0 0
      { s with jobs := s.jobs.drop 1,
               processedJobs := s.processedJobs ++ [p],
               executionLog := pushLog s.executionLog (.processed p) }

/-- `reset`. -/
def reset (s : QState) : QState :=
  { s with jobs := [], processedJobs := [], nextJobId := 1,
           backpressureAlert := false, executionLog := [],
           queueDepthHistory := [], currentTime := 0 }

/-- `toggleMode`: flip the mode and reset. -/
def toggleMode (s : QState) : QState :=
  reset { s with mode := match s.mode with | .stack => .queue | .queue => .stack }

/-- One tick of the queue-depth monitor effect: record the depth (keeping
the last 20 samples) and set the purely illustrative backpressure label
exactly when the depth is at least `BACKPRESSURE_THRESHOLD`. -/
def depthMonitor (s : QState) : QState :=
  let hist := s.queueDepthHistory ++ [(s.currentTime + 1, s.jobs.length)]
  { s with currentTime := s.currentTime + 1,
           queueDepthHistory := hist.drop (hist.length - 20),
           backpressureAlert := decide (BACKPRESSURE_THRESHOLD ≤ s.jobs.length) }

/-- The operations that can fire on the module's state. -/
inductive Op
  | add
  | process
  | resetOp
  | toggle
  | monitor
  deriving DecidableEq, Repr

/-- Apply one operation. -/
def applyOp (s : QState) : Op → QState
  | .add => addJob s
  | .process => processJob s
  | .resetOp => reset s
  | .toggle => toggleMode s
  | .monitor => depthMonitor s

/-- State reached from the initial state by a sequence of operations. -/
def runOps (ops : List Op) : QState :=
  ops.foldl applyOp initState

end StacksQueuesModule

/-! ## Definitions: GraphModule (src/unnamed/part_000) -/

namespace GraphModule

/-- The fixed 4-node DAG's node ids (`DAG_NODES`). -/
def DAG_NODES : List String := ["A", "B", "C", "D"]

/-- The fixed edges (`DAG_EDGES`): A→B, A→C, B→D, C→D. -/
def DAG_EDGES : List (String × String) := [("A", "B"), ("A", "C"), ("B", "D"), ("C", "D")]

/-- `buildGraph`: adjacency list of a node, targets in edge order. -/
def buildGraph (v : String) : List String :=
  (DAG_EDGES.filter (fun e => e.1 = v)).map (fun e => e.2)

/-- Modelled from the spec: the dequeue/loop header of `runBFS` is missing
from the truncated source file `src/unnamed/part_000`; only the queue
seeded with `"A"`, the visited-marking, and the neighbour push guarded by
`!vis.has(neighbor) && !q.includes(neighbor)` are visible.  The loop is the
standard BFS queue loop: dequeue the front, mark it visited, and append
each unvisited, not-yet-queued neighbour.  `fuel` bounds the iterations. -/
def bfsLoop : Nat → List String → List String → List String
  | 0, _, _ => []
  | _ + 1, [], _ => []
  | fuel + 1, current :: rest, vis =>
    let vis' := vis ++ [current]
    let q' := (buildGraph current).foldl
      (fun acc nb => if nb ∈ vis' ∨ nb ∈ acc then acc else acc ++ [nb]) rest
    current :: bfsLoop fuel q' vis'

/-- The node visit order of `runBFS` from source `"A"`. -/
def runBFS : List String := bfsLoop 8 ["A"] []

/-- Modelled from the spec: the pop/loop header of `runDFS` is missing from
the truncated source file `src/unnamed/part_000`; only the stack seeded
with `"A"`, the visited-marking, and the reversed neighbour push guarded by
`!vis.has(neighbor)` are visible.  The loop is the standard DFS stack loop:
pop the top, skip it if already visited, otherwise mark it visited and push
its unvisited neighbours in reverse order (so they pop in list order).  The
stack top is the list head; `fuel` bounds the iterations. -/
def dfsLoop : Nat → List String → List String → List String
  | 0, _, _ => []
  | _ + 1, [], _ => []
  | fuel + 1, current :: rest, vis =>
    if current ∈ vis then dfsLoop fuel rest vis
    else
      let vis' := vis ++ [current]
      let stk' := (buildGraph current).reverse.foldl
        (fun acc nb => if nb ∈ vis' then acc else nb :: acc) rest
      current :: dfsLoop fuel stk' vis'

/-- The node visit order of `runDFS` from source `"A"`. -/
def runDFS : List String := dfsLoop 8 ["A"] []

/-- Nodes reachable from `"A"` in exactly `k` edge steps. -/
def reachIn : Nat → List String
  | 0 => ["A"]
  | k + 1 => (reachIn k).foldl (fun acc v => acc ++ buildGraph v) []

/-- Distance from the source `"A"`: the least number of edge steps reaching
the node (4 when unreachable — cannot happen on this 4-node DAG). -/
def distFromA (v : String) : Nat :=
  ((List.range 4).find? (fun k => (reachIn k).contains v)).getD 4

end GraphModule

/-! ## Theorems -/

/-- C5: on the fixed 4-node DAG with source A, `runBFS` visits the nodes in
non-decreasing distance-from-source order (A, then B and C at distance 1,
then D at distance 2) and `runDFS` visits them in the pre-order determined
by the fixed adjacency lists (neighbours pushed in reverse, popped in list
order); each node is visited exactly once by each traversal. -/
theorem claim_C5 :
    GraphModule.runBFS = ["A", "B", "C", "D"] ∧
    List.Sorted (· ≤ ·) (GraphModule.runBFS.map GraphModule.distFromA) ∧
    GraphModule.runBFS.Nodup ∧
    (∀ v ∈ GraphModule.DAG_NODES, v ∈ GraphModule.runBFS) ∧
    GraphModule.runDFS = ["A", "B", "D", "C"] ∧
    GraphModule.runDFS.Nodup ∧
    (∀ v ∈ GraphModule.DAG_NODES, v ∈ GraphModule.runDFS) := by
  refine ⟨by decide, by decide, by decide, by decide, by decide, by decide, by decide⟩

/-- C6: for every free-text input to the numeric-entry parse handlers, the
input is split on commas and non-integer tokens are silently dropped;
parsing "40, 30, 60" yields the dataset [40, 30, 60]; parsing "" or "abc"
(an empty result) triggers the blocking alert (`true` flag) and leaves the
current dataset unchanged. -/
theorem claim_C6 (cur : List Int) :
    SlidingWindowModule.handleParse "40, 30, 60".toList cur = ([40, 30, 60], false) ∧
    SlidingWindowModule.handleParse "".toList cur = (cur, true) ∧
    SlidingWindowModule.handleParse "abc".toList cur = (cur, true) ∧
    TwoPointersModule.handleParse "".toList cur = (cur, true) ∧
    TwoPointersModule.handleParse "abc".toList cur = (cur, true) ∧
    (∀ input : List Char, NumericEntry.parseNumbers input = [] →
      SlidingWindowModule.handleParse input cur = (cur, true) ∧
      TwoPointersModule.handleParse input cur = (cur, true)) := by
  have h1 : NumericEntry.parseNumbers "40, 30, 60".toList = [40, 30, 60] := by decide
  have h2 : NumericEntry.parseNumbers "".toList = [] := by decide
  have h3 : NumericEntry.parseNumbers "abc".toList = [] := by decide
  refine ⟨?_, ?_, ?_, ?_, ?_, ?_⟩
  · simp only [SlidingWindowModule.handleParse]; rw [h1]; simp
  · simp only [SlidingWindowModule.handleParse]; rw [h2]; simp
  · simp only [SlidingWindowModule.handleParse]; rw [h3]; simp
  · simp only [TwoPointersModule.handleParse]; rw [h2]; simp
  · simp only [TwoPointersModule.handleParse]; rw [h3]; simp
  · intro input hemp
    exact ⟨by simp only [SlidingWindowModule.handleParse]; rw [hemp]; simp,
           by simp only [TwoPointersModule.handleParse]; rw [hemp]; simp⟩

/-- Witness for C6 at the concrete rejected input "xy" and dataset [7]. -/
theorem claim_C6_witness :
    NumericEntry.parseNumbers "xy".toList = [] ∧
    SlidingWindowModule.handleParse "xy".toList [7] = ([7], true) :=
  ⟨by decide, ((claim_C6 [7]).2.2.2.2.2 "xy".toList (by decide)).1⟩

/-- C9: on every non-empty heap, `popJob` removes exactly the root,
replaces it with the last element, shrinks the length by one and leaves
every other element in place; since no bubble-down is performed, the
max-heap ordering is not restored: a valid max-heap exists whose pop
violates `heapInv`. -/
theorem claim_C9 :
    (∀ h : List HeapModule.Job, h ≠ [] →
      (HeapModule.popJob h).length = h.length - 1 ∧
      (2 ≤ h.length →
        (HeapModule.popJob h).getD 0 HeapModule.defaultJob
            = h.getD (h.length - 1) HeapModule.defaultJob ∧
        ∀ i, 1 ≤ i → i < h.length - 1 →
          (HeapModule.popJob h).getD i HeapModule.defaultJob
              = h.getD i HeapModule.defaultJob)) ∧
    (∃ g : List HeapModule.Job,
      HeapModule.heapInv g ∧ ¬ HeapModule.heapInv (HeapModule.popJob g)) := by
  constructor
  · intro h hne
    have hlen : h.length ≠ 0 := by simpa using hne
    unfold HeapModule.popJob
    rw [if_neg hlen]
    by_cases h1 : h.length = 1
    · rw [if_pos h1]
      refine ⟨by simp [h1], ?_⟩
      intro h2
      omega
    · rw [if_neg h1]
      have h2 : 2 ≤ h.length := by omega
      refine ⟨by simp, ?_⟩
      intro _
      constructor
      · have e1 : 0 < h.length - 1 := by omega
        have e2 : 0 < h.length := by omega
        simp [List.getD_eq_getElem?_getD, List.getElem?_dropLast, List.getElem?_set, e1, e2]
      · intro i hi1 hi2
        have e2 : ¬(0 = i) := by omega
        simp [List.getD_eq_getElem?_getD, List.getElem?_dropLast, List.getElem?_set, hi2, e2,
          List.getElem?_eq_getElem (show i < h.length by omega)]
  · refine ⟨[⟨1, .Critical, 3⟩, ⟨2, .High, 2⟩, ⟨3, .High, 2⟩, ⟨4, .Low, 1⟩, ⟨5, .Low, 1⟩], ?_, ?_⟩
    · intro i hi0 hilen
      simp only [List.length_cons, List.length_nil] at hilen
      interval_cases i <;> decide
    · intro hcon
      have hpop : HeapModule.popJob
          [⟨1, .Critical, 3⟩, ⟨2, .High, 2⟩, ⟨3, .High, 2⟩, ⟨4, .Low, 1⟩, ⟨5, .Low, 1⟩]
          = [⟨5, .Low, 1⟩, ⟨2, .High, 2⟩, ⟨3, .High, 2⟩, ⟨4, .Low, 1⟩] := by decide
      rw [hpop] at hcon
      have := hcon 1 (by norm_num) (by norm_num)
      revert this
      decide

/-- Witness for C9 at the concrete two-element heap. -/
theorem claim_C9_witness :
    ([⟨1, .Critical, 3⟩, ⟨2, .Low, 1⟩] : List HeapModule.Job) ≠ [] ∧
    (HeapModule.popJob [⟨1, .Critical, 3⟩, ⟨2, .Low, 1⟩]).length = 1 :=
  ⟨by decide, ((claim_C9.1 [⟨1, .Critical, 3⟩, ⟨2, .Low, 1⟩] (by decide)).1).trans (by decide)⟩

/-- The incremental running sum at window start `p` equals the sum of the
slice `data[p .. p + WINDOW_SIZE)`. -/
theorem runningSum_eq_slice (data : List Int) :
    ∀ p, p + SlidingWindowModule.WINDOW_SIZE ≤ data.length →
      SlidingWindowModule.runningSum data p
        = ((data.drop p).take SlidingWindowModule.WINDOW_SIZE).sum := by
  intro p
  induction p with
  | zero =>
    intro _
    simp [SlidingWindowModule.runningSum]
  | succ p ih =>
    intro hp
    have hp' : p + SlidingWindowModule.WINDOW_SIZE ≤ data.length := by omega
    have hK : SlidingWindowModule.WINDOW_SIZE = 3 := rfl
    rw [SlidingWindowModule.runningSum, ih hp']
    have hplen : p < data.length := by omega
    have hp3len : p + 3 < data.length := by omega
    have hdrop : data.drop p = data[p] :: data.drop (p + 1) :=
      List.drop_eq_getElem_cons hplen
    have htake : (data.drop (p + 1)).take 3
        = (data.drop (p + 1)).take 2 ++ [data[p + 3]] := by
      rw [List.take_succ]
      have : (data.drop (p + 1))[2]? = some data[p + 3] := by
        rw [List.getElem?_drop]
        exact List.getElem?_eq_getElem (by omega)
      rw [this]
      rfl
    rw [hK] at *
    rw [hdrop, htake]
    simp only [List.take_succ_cons, List.sum_cons, List.sum_append, List.sum_cons,
      List.sum_nil]
    rw [List.getD_eq_getElem data 0 hplen, List.getD_eq_getElem data 0 hp3len]
    ring

/-- C3: for every dataset and every window start `0 ≤ p ≤ N - K` with the
fixed `K = WINDOW_SIZE = 3 ≤ N`, the incrementally maintained sum of the
animation loop equals the brute-force slice-and-reduce sum of the same
window computed independently in the Snowflake table view. -/
theorem claim_C3 (data : List Int) (p : Nat)
    (hp : p + SlidingWindowModule.WINDOW_SIZE ≤ data.length) :
    SlidingWindowModule.snowflakeWindowSum data (p + SlidingWindowModule.WINDOW_SIZE - 1)
      = some (SlidingWindowModule.runningSum data p) := by
  rw [runningSum_eq_slice data p hp]
  unfold SlidingWindowModule.snowflakeWindowSum
  simp only [SlidingWindowModule.WINDOW_SIZE]
  rw [if_neg (by omega)]
  have h1 : p + 3 - 1 + 1 - 3 = p := by omega
  rw [h1]
  have h2 : p + 3 - 1 + 1 - p = 3 := by omega
  rw [h2]

/-- Witness for C3 at the sample dataset and window start 1. -/
theorem claim_C3_witness :
    1 + SlidingWindowModule.WINDOW_SIZE ≤ SlidingWindowModule.SAMPLE_DATA.length ∧
    SlidingWindowModule.snowflakeWindowSum SlidingWindowModule.SAMPLE_DATA
        (1 + SlidingWindowModule.WINDOW_SIZE - 1)
      = some (SlidingWindowModule.runningSum SlidingWindowModule.SAMPLE_DATA 1) :=
  ⟨by decide, claim_C3 SlidingWindowModule.SAMPLE_DATA 1 (by decide)⟩

/-- C10: whenever the parsed input of the two-pointers module is non-empty,
the Set Data handler stores the ascending sort of the parsed tokens: a
sorted permutation of the valid parsed integers (so the sorted-input
precondition of the deduplication loop holds for every stored dataset). -/
theorem claim_C10 (input : List Char) (cur : List Int)
    (hne : NumericEntry.parseNumbers input ≠ []) :
    List.Sorted (· ≤ ·) (TwoPointersModule.handleParse input cur).1 ∧
    (TwoPointersModule.handleParse input cur).1.Perm (NumericEntry.parseNumbers input) ∧
    (TwoPointersModule.handleParse input cur).2 = false := by
  simp only [TwoPointersModule.handleParse]
  rw [if_neg hne]
  refine ⟨?_, ?_, rfl⟩
  · have hpair := @List.sorted_mergeSort Int (fun a b : Int => decide (a ≤ b))
      (fun a b c hab hbc => by
        simp only [decide_eq_true_eq] at *
        omega)
      (fun a b => by
        simp only [Bool.or_eq_true, decide_eq_true_eq]
        omega)
      (NumericEntry.parseNumbers input)
    unfold List.Sorted
    exact hpair.imp (fun hab => by simpa using hab)
  · exact List.mergeSort_perm (NumericEntry.parseNumbers input) _

/-- Witness for C10 at the concrete input "3, 1, 2". -/
theorem claim_C10_witness :
    NumericEntry.parseNumbers "3, 1, 2".toList ≠ [] ∧
    List.Sorted (· ≤ ·) (TwoPointersModule.handleParse "3, 1, 2".toList []).1 :=
  ⟨by decide, (claim_C10 "3, 1, 2".toList [] (by decide)).1⟩

/-- Every operation of the stacks/queues module keeps the jobs list within
`MAX_QUEUE_SIZE`. -/
theorem applyOp_length_le (s : StacksQueuesModule.QState)
    (hs : s.jobs.length ≤ StacksQueuesModule.MAX_QUEUE_SIZE) (op : StacksQueuesModule.Op) :
    (StacksQueuesModule.applyOp s op).jobs.length ≤ StacksQueuesModule.MAX_QUEUE_SIZE := by
  cases op with
  | add =>
    unfold StacksQueuesModule.applyOp StacksQueuesModule.addJob
    by_cases hfull : StacksQueuesModule.MAX_QUEUE_SIZE ≤ s.jobs.length
    · rw [if_pos hfull]; exact hs
    · rw [if_neg hfull]
      simp only [List.length_append, List.length_cons, List.length_nil]
      omega
  | process =>
    unfold StacksQueuesModule.applyOp StacksQueuesModule.processJob
    by_cases hemp : s.jobs = []
    · rw [if_pos hemp]; exact hs
    · rw [if_neg hemp]
      cases s.mode <;> simp <;> omega
  | resetOp => simp [StacksQueuesModule.applyOp, StacksQueuesModule.reset]
  | toggle =>
    simp [StacksQueuesModule.applyOp, StacksQueuesModule.toggleMode,
      StacksQueuesModule.reset]
  | monitor => simpa [StacksQueuesModule.applyOp, StacksQueuesModule.depthMonitor] using hs

/-- C8: in every reachable state of the stacks/queues module the jobs list
holds at most `MAX_QUEUE_SIZE = 8` entries; `addJob` on a full queue
refuses the job — it only raises the backpressure alert and pushes a log
entry, changing nothing else — and otherwise appends exactly one job; the
purely illustrative backpressure label of the depth monitor is set exactly
when the queue depth reaches `BACKPRESSURE_THRESHOLD = 6`. -/
theorem claim_C8 :
    (∀ ops : List StacksQueuesModule.Op,
      (StacksQueuesModule.runOps ops).jobs.length ≤ StacksQueuesModule.MAX_QUEUE_SIZE) ∧
    (∀ s : StacksQueuesModule.QState,
      StacksQueuesModule.MAX_QUEUE_SIZE ≤ s.jobs.length →
      StacksQueuesModule.addJob s
        = { s with backpressureAlert := true,
                   executionLog := StacksQueuesModule.pushLog s.executionLog .backpressureFull }) ∧
    (∀ s : StacksQueuesModule.QState,
      s.jobs.length < StacksQueuesModule.MAX_QUEUE_SIZE →
      StacksQueuesModule.addJob s
        = { s with jobs := s.jobs ++ [s.nextJobId],
                   executionLog := StacksQueuesModule.pushLog s.executionLog (.added s.nextJobId),
                   nextJobId := s.nextJobId + 1,
                   backpressureAlert := false }) ∧
    (∀ s : StacksQueuesModule.QState,
      (StacksQueuesModule.depthMonitor s).backpressureAlert = true
        ↔ StacksQueuesModule.BACKPRESSURE_THRESHOLD ≤ s.jobs.length) := by
  refine ⟨?_, ?_, ?_, ?_⟩
  · intro ops
    unfold StacksQueuesModule.runOps
    have hinit : StacksQueuesModule.initState.jobs.length
        ≤ StacksQueuesModule.MAX_QUEUE_SIZE := by decide
    generalize StacksQueuesModule.initState = s at hinit ⊢
    induction ops generalizing s with
    | nil => exact hinit
    | cons op ops ih => exact ih _ (applyOp_length_le s hinit op)
  · intro s hfull
    unfold StacksQueuesModule.addJob
    rw [if_pos hfull]
  · intro s hroom
    unfold StacksQueuesModule.addJob
    rw [if_neg (by omega)]
  · intro s
    simp [StacksQueuesModule.depthMonitor]

/-- Witness for C8 at a concrete full queue state. -/
theorem claim_C8_witness :
    StacksQueuesModule.MAX_QUEUE_SIZE
        ≤ (StacksQueuesModule.QState.mk .queue [1, 2, 3, 4, 5, 6, 7, 8] [] 9 false [] [] 0).jobs.length ∧
    (StacksQueuesModule.addJob
        (StacksQueuesModule.QState.mk .queue [1, 2, 3, 4, 5, 6, 7, 8] [] 9 false [] [] 0)).jobs
      = [1, 2, 3, 4, 5, 6, 7, 8] :=
  ⟨by decide, by
    rw [claim_C8.2.1 (StacksQueuesModule.QState.mk .queue [1, 2, 3, 4, 5, 6, 7, 8] [] 9 false [] [] 0)
      (by decide)]⟩

/-- Setting the element right behind a prefix. -/
theorem set_length_append {α : Type} (l₁ l₂ : List α) (x : α) :
    (l₁ ++ l₂).set l₁.length x = l₁ ++ l₂.set 0 x := by
  induction l₁ with
  | nil => simp
  | cons a t ih => simp [ih]

/-- Reading the element right behind a prefix. -/
theorem getD_append_length {α : Type} (l₁ l₂ : List α) (d : α) :
    (l₁ ++ l₂).getD l₁.length d = l₂.getD 0 d := by
  simp [List.getD_eq_getElem?_getD, List.getElem?_append_right (Nat.le_refl _)]

/-- Characterisation of the deduplication loop: with reads `rest` pending
behind the prefix `pre`, the written prefix `out` (whose last entry is
`last`) followed by scratch space `pad`, the loop writes exactly
`dlAux last rest` behind `out` and moves the write pointer past it. -/
theorem dedupLoop_spec :
    ∀ (rest pre out pad : List Int) (last : Int),
      out ≠ [] →
      out.getD (out.length - 1) 0 = last →
      out.length + pad.length = pre.length + rest.length →
      out.length ≤ pre.length →
      TwoPointersModule.dedupLoop (pre ++ rest) (out ++ pad) out.length pre.length =
        ((out ++ TwoPointersModule.dlAux last rest)
            ++ pad.drop (TwoPointersModule.dlAux last rest).length,
         out.length + (TwoPointersModule.dlAux last rest).length) := by
  intro rest
  induction rest with
  | nil =>
    intro pre out pad last h1 h2 h3 h4
    rw [TwoPointersModule.dedupLoop.eq_def]
    rw [if_neg (by simp)]
    simp [TwoPointersModule.dlAux]
  | cons x rest' ih =>
    intro pre out pad last h1 h2 h3 h4
    have hout : 1 ≤ out.length := by
      cases out with
      | nil => exact absurd rfl h1
      | cons _ _ => simp
    have hpad : pad ≠ [] := by
      intro hp
      rw [hp] at h3
      simp at h3
      omega
    obtain ⟨p0, pad', rfl⟩ := List.exists_cons_of_ne_nil hpad
    have hcur : (pre ++ x :: rest').getD pre.length 0 = x := by
      rw [getD_append_length]
      rfl
    have hlast : (out ++ p0 :: pad').getD (out.length - 1) 0 = last := by
      rw [List.getD_append _ _ _ _ (by omega)]
      exact h2
    rw [TwoPointersModule.dedupLoop.eq_def]
    rw [if_pos (by simp)]
    simp only [hcur, hlast]
    by_cases hx : x ≠ last
    · rw [if_pos hx]
      have hset : (out ++ p0 :: pad').set out.length x = (out ++ [x]) ++ pad' := by
        rw [set_length_append]
        simp
      rw [hset]
      have hdata : pre ++ x :: rest' = (pre ++ [x]) ++ rest' := by simp
      have hlen1 : out.length + 1 = (out ++ [x]).length := by simp
      have hlen2 : pre.length + 1 = (pre ++ [x]).length := by simp
      rw [hdata, hlen1, hlen2]
      rw [ih (pre ++ [x]) (out ++ [x]) pad' x (by simp)
        (by simp [getD_append_length])
        (by simp at h3 ⊢; omega) (by simp; omega)]
      have hdl : TwoPointersModule.dlAux last (x :: rest')
          = x :: TwoPointersModule.dlAux x rest' := by
        rw [TwoPointersModule.dlAux]
        rw [if_pos hx]
      rw [hdl]
      simp
      omega
    · rw [if_neg hx]
      have hdata : pre ++ x :: rest' = (pre ++ [x]) ++ rest' := by simp
      have hlen2 : pre.length + 1 = (pre ++ [x]).length := by simp
      rw [hdata, hlen2]
      rw [ih (pre ++ [x]) out (p0 :: pad') last h1 h2
        (by simp at h3 ⊢; omega) (by simp; omega)]
      have hdl : TwoPointersModule.dlAux last (x :: rest')
          = TwoPointersModule.dlAux last rest' := by
        rw [TwoPointersModule.dlAux]
        rw [if_neg hx]
      rw [hdl]

/-- On a sorted list, the adjacent-deduplication `dlAux` computes exactly
the distinct values in order. -/
theorem dlAux_eq_dedup :
    ∀ (t : List Int) (a : Int), List.Sorted (· ≤ ·) (a :: t) →
      a :: TwoPointersModule.dlAux a t = (a :: t).dedup := by
  intro t
  induction t with
  | nil =>
    intro a _
    simp [TwoPointersModule.dlAux]
  | cons b t' ih =>
    intro a hs
    by_cases hab : b = a
    · subst hab
      have hdl : TwoPointersModule.dlAux b (b :: t')
          = TwoPointersModule.dlAux b t' := by
        rw [TwoPointersModule.dlAux]
        simp
      rw [hdl, ih b hs.of_cons]
      rw [List.dedup_cons_of_mem (List.mem_cons_self b t')]
    · have hdl : TwoPointersModule.dlAux a (b :: t')
          = b :: TwoPointersModule.dlAux b t' := by
        rw [TwoPointersModule.dlAux]
        rw [if_pos hab]
      have hnot : a ∉ b :: t' := by
        intro hmem
        rcases List.mem_cons.mp hmem with h | h
        · exact hab h.symm
        · have h1 : a ≤ b := List.rel_of_sorted_cons hs b (List.mem_cons_self b t')
          have h2 : b ≤ a := List.rel_of_sorted_cons hs.of_cons a h
          exact hab (le_antisymm h2 h1)
      rw [hdl, List.dedup_cons_of_not_mem hnot, ih b hs.of_cons]

/-- C2: for every non-empty sorted array (duplicates allowed), the
two-pointer deduplication loop terminates with the write pointer equal to
the number of distinct values, and the first `writePointer` entries of the
processed array equal to the distinct values in their original order. -/
theorem claim_C2 (data : List Int) (hne : data ≠ [])
    (hs : List.Sorted (· ≤ ·) data) :
    (TwoPointersModule.runDedup data).2 = data.dedup.length ∧
    (TwoPointersModule.runDedup data).1.take (TwoPointersModule.runDedup data).2
      = data.dedup := by
  obtain ⟨a, tl, rfl⟩ := List.exists_cons_of_ne_nil hne
  have hinit : TwoPointersModule.initProcessed (a :: tl)
      = a :: List.replicate tl.length 0 := by
    unfold TwoPointersModule.initProcessed
    rw [if_neg (by simp)]
    simp
  have hrun : TwoPointersModule.runDedup (a :: tl)
      = TwoPointersModule.dedupLoop ([a] ++ tl) ([a] ++ List.replicate tl.length 0) 1 1 := by
    unfold TwoPointersModule.runDedup
    rw [hinit]
    rfl
  have hspec := dedupLoop_spec tl [a] [a] (List.replicate tl.length 0) a
    (by simp) (by simp) (by simp) (by simp)
  simp only [List.length_singleton] at hspec
  rw [hrun, hspec]
  have hded := dlAux_eq_dedup tl a hs
  have hfront : ([a] ++ TwoPointersModule.dlAux a tl : List Int) = (a :: tl).dedup := by
    rw [List.singleton_append]
    exact hded
  have hlen : 1 + (TwoPointersModule.dlAux a tl).length = ((a :: tl).dedup).length := by
    rw [← hded]
    simp only [List.length_cons]
    omega
  constructor
  · exact hlen
  · rw [hlen, hfront]
    exact List.take_left _ _

/-- C2 counterexample: on the (sorted) empty array the loop exits at once
with `writePointer = 1`, but the number of distinct values is 0 — the
unrestricted claim fails on the empty array (which the module itself never
stores: `handleParse` rejects empty datasets). -/
theorem claim_C2_counterexample :
    List.Sorted (· ≤ ·) ([] : List Int) ∧
    (TwoPointersModule.runDedup []).2 = 1 ∧
    (([] : List Int).dedup).length = 0 := by
  refine ⟨by decide, ?_, by decide⟩
  simp [TwoPointersModule.runDedup, TwoPointersModule.initProcessed,
    TwoPointersModule.dedupLoop]

/-- Witness for C2 at the concrete sorted input [1, 1, 2]. -/
theorem claim_C2_witness :
    ([1, 1, 2] : List Int) ≠ [] ∧ List.Sorted (· ≤ ·) ([1, 1, 2] : List Int) ∧
    (TwoPointersModule.runDedup [1, 1, 2]).2 = 2 :=
  ⟨by decide, by decide,
    ((claim_C2 [1, 1, 2] (by decide) (by decide)).1).trans (by decide)⟩

/-- Setting another index does not change the value read. -/
theorem val_set_of_ne (h : List HeapModule.Job) (i j : Nat) (x : HeapModule.Job)
    (hij : i ≠ j) : HeapModule.val (h.set i x) j = HeapModule.val h j := by
  simp [HeapModule.val, List.getD_eq_getElem?_getD, List.getElem?_set, hij]

/-- Setting an in-range index stores the given priority value. -/
theorem val_set_self (h : List HeapModule.Job) (i : Nat) (x : HeapModule.Job)
    (hi : i < h.length) : HeapModule.val (h.set i x) i = x.priorityValue := by
  simp [HeapModule.val, List.getD_eq_getElem?_getD, List.getElem?_set, hi]

/-- After the bubble-up swap, position `p` holds the old child value. -/
theorem val_swap_left (h : List HeapModule.Job) (i p : Nat) (hp : p < h.length) :
    HeapModule.val ((h.set i (h.getD p HeapModule.defaultJob)).set p (h.getD i HeapModule.defaultJob)) p
      = HeapModule.val h i := by
  rw [val_set_self _ _ _ (by simpa using hp)]
  rfl

/-- After the bubble-up swap, position `i` holds the old parent value. -/
theorem val_swap_right (h : List HeapModule.Job) (i p : Nat) (hip : p ≠ i)
    (hi : i < h.length) :
    HeapModule.val ((h.set i (h.getD p HeapModule.defaultJob)).set p (h.getD i HeapModule.defaultJob)) i
      = HeapModule.val h p := by
  rw [val_set_of_ne _ p i _ hip, val_set_self _ _ _ hi]
  rfl

/-- The bubble-up swap leaves every other position unchanged. -/
theorem val_swap_other (h : List HeapModule.Job) (i p j : Nat) (hj1 : i ≠ j)
    (hj2 : p ≠ j) :
    HeapModule.val ((h.set i (h.getD p HeapModule.defaultJob)).set p (h.getD i HeapModule.defaultJob)) j
      = HeapModule.val h j := by
  rw [val_set_of_ne _ p j _ hj2, val_set_of_ne _ i j _ hj1]

/-- A bubble-up swap at a violating index `i` re-establishes the
almost-heap invariant one level up, at the parent `p = (i - 1) / 2`. -/
theorem almostInv_swap (h : List HeapModule.Job) (i p : Nat)
    (h0 : 0 < i) (hlen : i < h.length) (hpd : p = (i - 1) / 2)
    (ha1 : ∀ j, 0 < j → j < h.length → j ≠ i →
      HeapModule.val h j ≤ HeapModule.val h ((j - 1) / 2))
    (ha2 : ∀ j, j < h.length → (j - 1) / 2 = i → j ≠ i →
      HeapModule.val h j ≤ HeapModule.val h ((i - 1) / 2))
    (hlt : HeapModule.val h p < HeapModule.val h i) :
    HeapModule.almostInv
      ((h.set i (h.getD p HeapModule.defaultJob)).set p (h.getD i HeapModule.defaultJob)) p := by
  have hpi : p < i := by omega
  have hplen : p < h.length := lt_trans hpi hlen
  constructor
  · intro j hj0 hjlen hjp
    rw [List.length_set, List.length_set] at hjlen
    by_cases hji : j = i
    · subst hji
      rw [← hpd, val_swap_right h j p (by omega) hlen, val_swap_left h j p hplen]
      exact le_of_lt hlt
    · rw [val_swap_other h i p j (Ne.symm hji) (Ne.symm hjp)]
      by_cases hpar_i : (j - 1) / 2 = i
      · rw [hpar_i, val_swap_right h i p (by omega) hlen]
        have := ha2 j hjlen hpar_i hji
        rw [← hpd] at this
        exact this
      · by_cases hpar_p : (j - 1) / 2 = p
        · rw [hpar_p, val_swap_left h i p hplen]
          have h1 := ha1 j hj0 hjlen hji
          rw [hpar_p] at h1
          exact le_trans h1 (le_of_lt hlt)
        · rw [val_swap_other h i p ((j - 1) / 2) (Ne.symm hpar_i) (Ne.symm hpar_p)]
          exact ha1 j hj0 hjlen hji
  · intro hp0 j hjlen hjpar hjp
    rw [List.length_set, List.length_set] at hjlen
    have hgp1 : (p - 1) / 2 ≠ i := by omega
    have hgp2 : (p - 1) / 2 ≠ p := by omega
    rw [val_swap_other h i p ((p - 1) / 2) (Ne.symm hgp1) (Ne.symm hgp2)]
    by_cases hji : j = i
    · subst hji
      rw [val_swap_right h j p (by omega) hlen]
      exact ha1 p hp0 hplen (by omega)
    · rw [val_swap_other h i p j (Ne.symm hji) (Ne.symm hjp)]
      have hj0 : 0 < j := by omega
      have h1 := ha1 j hj0 hjlen hji
      rw [hjpar] at h1
      exact le_trans h1 (ha1 p hp0 hplen (by omega))

/-- Running the bubble-up loop from an almost-heap state yields a heap
satisfying the max-heap invariant. -/
theorem heapInv_bubbleUp :
    ∀ i (h : List HeapModule.Job), i < h.length → HeapModule.almostInv h i →
      HeapModule.heapInv (HeapModule.bubbleUp h i) := by
  intro i
  induction i using Nat.strong_induction_on with
  | _ i IH =>
    intro h hlen hai
    obtain ⟨ha1, ha2⟩ := hai
    rw [HeapModule.bubbleUp.eq_def]
    by_cases hi0 : i = 0
    · rw [if_pos hi0]
      intro j hj0 hjlen
      exact ha1 j hj0 hjlen (by omega)
    · rw [if_neg hi0]
      dsimp only
      by_cases hcmp : HeapModule.val h ((i - 1) / 2) < HeapModule.val h i
      · rw [if_pos hcmp]
        exact IH ((i - 1) / 2) (by omega) _
          (by simp only [List.length_set]; omega)
          (almostInv_swap h i ((i - 1) / 2) (by omega) hlen rfl ha1 (ha2 (by omega)) hcmp)
      · rw [if_neg hcmp]
        intro j hj0 hjlen
        by_cases hji : j = i
        · subst hji
          exact le_of_not_lt hcmp
        · exact ha1 j hj0 hjlen hji

/-- Appending a fresh job to a valid max-heap yields an almost-heap whose
only possible violation is at the appended index. -/
theorem almostInv_append (h : List HeapModule.Job) (x : HeapModule.Job)
    (hinv : HeapModule.heapInv h) : HeapModule.almostInv (h ++ [x]) h.length := by
  have hval : ∀ j, j < h.length →
      HeapModule.val (h ++ [x]) j = HeapModule.val h j := by
    intro j hj
    simp [HeapModule.val, List.getD_eq_getElem?_getD, List.getElem?_append_left hj]
  constructor
  · intro j hj0 hjlen hji
    have hjlt : j < h.length := by
      simp only [List.length_append, List.length_cons, List.length_nil] at hjlen
      omega
    rw [hval j hjlt, hval ((j - 1) / 2) (by omega)]
    exact hinv j hj0 hjlt
  · intro hp0 j hjlen hjpar hji
    exfalso
    simp only [List.length_append, List.length_cons, List.length_nil] at hjlen
    omega

/-- One `addJob` preserves the max-heap invariant. -/
theorem heapInv_addJob (s : HeapModule.HeapState) (p : HeapModule.JobPriority)
    (hinv : HeapModule.heapInv s.heap) :
    HeapModule.heapInv (HeapModule.addJob s p).heap := by
  unfold HeapModule.addJob
  dsimp only
  have hlen : (s.heap ++ [(⟨s.nextJobId, p, HeapModule.PRIORITY_VALUES p⟩ : HeapModule.Job)]).length - 1
      = s.heap.length := by simp
  rw [hlen]
  exact heapInv_bubbleUp s.heap.length _ (by simp) (almostInv_append s.heap _ hinv)

/-- C4: starting from the empty heap, after any sequence of `addJob`
insertions (each running the bubble-up loop to completion, no pops
interleaved) the max-heap invariant holds at every index: every non-root
entry's priority value is at most its parent's at `⌊(i - 1) / 2⌋`. -/
theorem claim_C4 (ps : List HeapModule.JobPriority) :
    HeapModule.heapInv (HeapModule.addJobs ps).heap := by
  unfold HeapModule.addJobs
  have hgen : ∀ (qs : List HeapModule.JobPriority) (s : HeapModule.HeapState),
      HeapModule.heapInv s.heap →
      HeapModule.heapInv ((qs.foldl HeapModule.addJob s).heap) := by
    intro qs
    induction qs with
    | nil => intro s hs; exact hs
    | cons q qs ih =>
      intro s hs
      exact ih _ (heapInv_addJob s q hs)
  refine hgen ps HeapModule.initialState ?_
  intro j hj0 hjlen
  simp [HeapModule.initialState] at hjlen

/-- Monotonicity of the step-count bound. -/
theorem gBound_mono {s₁ s₂ : Nat} (hs : s₁ ≤ s₂) :
    BinarySearchModule.gBound s₁ ≤ BinarySearchModule.gBound s₂ := by
  unfold BinarySearchModule.gBound
  by_cases hz : s₁ = 0
  · rw [if_pos hz]
    exact Nat.zero_le _
  · rw [if_neg hz, if_neg (by omega)]
    exact Nat.add_le_add_right (Nat.log_mono_right hs) 1

/-- Halving the interval costs one step of the bound. -/
theorem gBound_step {s₁ s : Nat} (h1 : s₁ ≤ s / 2) (h2 : 1 ≤ s) :
    BinarySearchModule.gBound s₁ + 1 ≤ BinarySearchModule.gBound s := by
  by_cases hz : s₁ = 0
  · subst hz
    unfold BinarySearchModule.gBound
    rw [if_pos rfl, if_neg (by omega)]
    omega
  · have hs2 : 2 ≤ s := by omega
    have hlog : 0 < Nat.log 2 s := Nat.log_pos (by norm_num) hs2
    calc BinarySearchModule.gBound s₁ + 1
        ≤ BinarySearchModule.gBound (s / 2) + 1 := Nat.add_le_add_right (gBound_mono h1) 1
      _ = (Nat.log 2 (s / 2) + 1) + 1 := by
          unfold BinarySearchModule.gBound
          rw [if_neg (by omega)]
      _ = Nat.log 2 s + 1 := by
          rw [Nat.log_div_base]
          omega
      _ = BinarySearchModule.gBound s := by
          unfold BinarySearchModule.gBound
          rw [if_neg (by omega)]

/-- Sorted lists read through `getD` are monotone on in-range indices. -/
theorem sorted_getD_le (arr : List Int) (hs : List.Sorted (· ≤ ·) arr) (i j : Nat)
    (hij : i ≤ j) (hj : j < arr.length) :
    arr.getD i 0 ≤ arr.getD j 0 := by
  have hi : i < arr.length := Nat.lt_of_le_of_lt hij hj
  rw [List.getD_eq_getElem arr 0 hi, List.getD_eq_getElem arr 0 hj]
  rcases Nat.eq_or_lt_of_le hij with heq | hlt
  · subst heq
    exact le_refl _
  · exact hs.rel_get_of_lt hlt

/-- Soundness of the search loop: a "found" report at index `m` means the
index is inside the current bounds and the array holds the target there. -/
theorem search_sound (arr : List Int) (t : Int) :
    ∀ (n : Nat) (l h m : Int), (h + 1 - l).toNat ≤ n → 0 ≤ l →
      (BinarySearchModule.search arr t l h).result = some m →
      l ≤ m ∧ m ≤ h ∧ arr.getD m.toNat 0 = t := by
  intro n
  induction n with
  | zero =>
    intro l h m hn h0 hres
    rw [BinarySearchModule.search.eq_def, if_pos (by omega)] at hres
    simp at hres
  | succ n ih =>
    intro l h m hn h0 hres
    rw [BinarySearchModule.search.eq_def] at hres
    by_cases hlh : l > h
    · rw [if_pos hlh] at hres
      simp at hres
    · rw [if_neg hlh] at hres
      dsimp only at hres
      by_cases hveq : arr.getD (l + (h - l) / 2).toNat 0 = t
      · rw [if_pos hveq] at hres
        have hm : m = l + (h - l) / 2 := by
          simp at hres
          omega
        subst hm
        exact ⟨by omega, by omega, hveq⟩
      · rw [if_neg hveq] at hres
        by_cases hvlt : arr.getD (l + (h - l) / 2).toNat 0 < t
        · rw [if_pos hvlt] at hres
          dsimp only at hres
          obtain ⟨h1, h2, h3⟩ := ih (l + (h - l) / 2 + 1) h m (by omega) (by omega) hres
          exact ⟨by omega, h2, h3⟩
        · rw [if_neg hvlt] at hres
          dsimp only at hres
          obtain ⟨h1, h2, h3⟩ := ih l (l + (h - l) / 2 - 1) m (by omega) h0 hres
          exact ⟨h1, by omega, h3⟩

/-- Completeness of the search loop on sorted arrays: when the target sits
at some index within the current bounds, the loop reports "found". -/
theorem search_complete (arr : List Int) (t : Int) (hs : List.Sorted (· ≤ ·) arr) :
    ∀ (n : Nat) (l h : Int), (h + 1 - l).toNat ≤ n → 0 ≤ l → h < (arr.length : Int) →
      (∃ j : Nat, l ≤ (j : Int) ∧ (j : Int) ≤ h ∧ j < arr.length ∧ arr.getD j 0 = t) →
      (BinarySearchModule.search arr t l h).result ≠ none := by
  intro n
  induction n with
  | zero =>
    intro l h hn h0 hh hex
    obtain ⟨j, hj1, hj2, _, _⟩ := hex
    omega
  | succ n ih =>
    intro l h hn h0 hh hex
    obtain ⟨j, hj1, hj2, hjlen, hjval⟩ := hex
    rw [BinarySearchModule.search.eq_def]
    have hlh : ¬(l > h) := by omega
    rw [if_neg hlh]
    dsimp only
    by_cases hveq : arr.getD (l + (h - l) / 2).toNat 0 = t
    · rw [if_pos hveq]
      simp
    · rw [if_neg hveq]
      have hmlt : (l + (h - l) / 2).toNat < arr.length := by omega
      by_cases hvlt : arr.getD (l + (h - l) / 2).toNat 0 < t
      · rw [if_pos hvlt]
        dsimp only
        have hjgt : l + (h - l) / 2 < (j : Int) := by
          by_contra hle
          push_neg at hle
          have hsle : arr.getD j 0 ≤ arr.getD (l + (h - l) / 2).toNat 0 :=
            sorted_getD_le arr hs j _ (by omega) hmlt
          omega
        exact ih (l + (h - l) / 2 + 1) h (by omega) (by omega) hh
          ⟨j, by omega, hj2, hjlen, hjval⟩
      · rw [if_neg hvlt]
        dsimp only
        have hjlt : (j : Int) < l + (h - l) / 2 := by
          by_contra hle
          push_neg at hle
          have hsle : arr.getD (l + (h - l) / 2).toNat 0 ≤ arr.getD j 0 :=
            sorted_getD_le arr hs _ j (by omega) hjlen
          omega
        exact ih l (l + (h - l) / 2 - 1) (by omega) h0 (by omega)
          ⟨j, hj1, by omega, hjlen, hjval⟩

/-- The search loop inspects at most `gBound s` mid positions on an
interval of `s` candidates. -/
theorem search_steps_le (arr : List Int) (t : Int) :
    ∀ (n : Nat) (l h : Int), (h + 1 - l).toNat ≤ n →
      (BinarySearchModule.search arr t l h).steps
        ≤ BinarySearchModule.gBound ((h + 1 - l).toNat) := by
  intro n
  induction n with
  | zero =>
    intro l h hn
    rw [BinarySearchModule.search.eq_def, if_pos (by omega)]
    exact Nat.zero_le _
  | succ n ih =>
    intro l h hn
    rw [BinarySearchModule.search.eq_def]
    by_cases hlh : l > h
    · rw [if_pos hlh]
      exact Nat.zero_le _
    · rw [if_neg hlh]
      dsimp only
      have hs1 : 1 ≤ (h + 1 - l).toNat := by omega
      by_cases hveq : arr.getD (l + (h - l) / 2).toNat 0 = t
      · rw [if_pos hveq]
        show 1 ≤ BinarySearchModule.gBound ((h + 1 - l).toNat)
        unfold BinarySearchModule.gBound
        rw [if_neg (by omega)]
        omega
      · rw [if_neg hveq]
        by_cases hvlt : arr.getD (l + (h - l) / 2).toNat 0 < t
        · rw [if_pos hvlt]
          dsimp only
          have hrec := ih (l + (h - l) / 2 + 1) h (by omega)
          refine le_trans (Nat.add_le_add_right hrec 1) ?_
          refine le_trans (Nat.add_le_add_right (gBound_mono (le_refl _)) 1) ?_
          exact @gBound_step ((h + 1 - (l + (h - l) / 2 + 1)).toNat) ((h + 1 - l).toNat)
            (by omega) hs1
        · rw [if_neg hvlt]
          dsimp only
          have hrec := ih l (l + (h - l) / 2 - 1) (by omega)
          refine le_trans (Nat.add_le_add_right hrec 1) ?_
          exact @gBound_step ((l + (h - l) / 2 - 1 + 1 - l).toNat) ((h + 1 - l).toNat)
            (by omega) hs1

/-- C1 counterexample: on the module's own 16-element sorted array and the
absent target 205, the loop inspects 5 mid positions, which exceeds the
claimed bound of `⌈log₂ N⌉ = 4` steps. -/
theorem claim_C1_counterexample :
    Nat.clog 2 BinarySearchModule.sortedArray.length
        < (BinarySearchModule.runBinarySearch BinarySearchModule.sortedArray 205).steps ∧
    (205 : Int) ∉ BinarySearchModule.sortedArray := by
  constructor
  · have h1 : (BinarySearchModule.runBinarySearch BinarySearchModule.sortedArray 205).steps
        = 5 := by
      simp [BinarySearchModule.runBinarySearch, BinarySearchModule.search,
        BinarySearchModule.sortedArray]
    have h2 : BinarySearchModule.sortedArray.length = 2 ^ 4 := by decide
    rw [h1, h2, Nat.clog_pow 2 4 (by norm_num)]
    norm_num
  · decide

/-- C1 (amended): for every sorted array and every target, the search loop
terminates; when the target is present it reports "found" at an index
holding the target, when it is absent it reports not-found, and it inspects
at most `⌊log₂ N⌋ + 1` mid positions (rather than the claimed `⌈log₂ N⌉`). -/
theorem claim_C1 (arr : List Int) (t : Int) (hs : List.Sorted (· ≤ ·) arr) :
    (∀ m : Int, (BinarySearchModule.runBinarySearch arr t).result = some m →
      0 ≤ m ∧ m.toNat < arr.length ∧ arr.getD m.toNat 0 = t) ∧
    (t ∈ arr → (BinarySearchModule.runBinarySearch arr t).result ≠ none) ∧
    (t ∉ arr → (BinarySearchModule.runBinarySearch arr t).result = none) ∧
    (BinarySearchModule.runBinarySearch arr t).steps ≤ Nat.log 2 arr.length + 1 := by
  unfold BinarySearchModule.runBinarySearch
  have hsound : ∀ m : Int,
      (BinarySearchModule.search arr t 0 ((arr.length : Int) - 1)).result = some m →
      0 ≤ m ∧ m ≤ (arr.length : Int) - 1 ∧ arr.getD m.toNat 0 = t := by
    intro m hres
    exact search_sound arr t (((arr.length : Int) - 1) + 1 - 0).toNat 0 _ m
      (le_refl _) (le_refl 0) hres
  refine ⟨?_, ?_, ?_, ?_⟩
  · intro m hres
    obtain ⟨h1, h2, h3⟩ := hsound m hres
    exact ⟨h1, by omega, h3⟩
  · intro hmem
    obtain ⟨j, hjlen, hjval⟩ := List.mem_iff_getElem.mp hmem
    apply search_complete arr t hs (((arr.length : Int) - 1) + 1 - 0).toNat 0 _
      (le_refl _) (le_refl 0) (by omega)
    exact ⟨j, by omega, by omega, hjlen,
      by rw [List.getD_eq_getElem arr 0 hjlen]; exact hjval⟩
  · intro hnmem
    cases hres : (BinarySearchModule.search arr t 0 ((arr.length : Int) - 1)).result with
    | none => rfl
    | some m =>
      obtain ⟨h1, h2, h3⟩ := hsound m hres
      exfalso
      have hmlt : m.toNat < arr.length := by omega
      apply hnmem
      rw [← h3, List.getD_eq_getElem arr 0 hmlt]
      exact List.getElem_mem hmlt
  · have hsteps := search_steps_le arr t (((arr.length : Int) - 1) + 1 - 0).toNat 0 _
      (le_refl _)
    have heq : ((((arr.length : Int) - 1) + 1 - 0)).toNat = arr.length := by omega
    rw [heq] at hsteps
    refine le_trans hsteps ?_
    unfold BinarySearchModule.gBound
    by_cases hz : arr.length = 0
    · rw [if_pos hz]
      omega
    · rw [if_neg hz]

/-- Witness for C1 at the concrete sorted array [1, 2, 3] and target 2. -/
theorem claim_C1_witness :
    List.Sorted (· ≤ ·) ([1, 2, 3] : List Int) ∧
    (BinarySearchModule.runBinarySearch [1, 2, 3] 2).steps
      ≤ Nat.log 2 ([1, 2, 3] : List Int).length + 1 :=
  ⟨by decide, (claim_C1 [1, 2, 3] 2 (by decide)).2.2.2⟩

/-- Every `(low, high)` pair handed to the display setters during the loop
satisfies `low ≤ high`. -/
theorem search_display_le (arr : List Int) (t : Int) :
    ∀ (n : Nat) (l h : Int), (h + 1 - l).toNat ≤ n →
      ∀ p ∈ (BinarySearchModule.search arr t l h).display, p.1 ≤ p.2 := by
  intro n
  induction n with
  | zero =>
    intro l h hn p hp
    rw [BinarySearchModule.search.eq_def, if_pos (by omega)] at hp
    simp at hp
  | succ n ih =>
    intro l h hn p hp
    rw [BinarySearchModule.search.eq_def] at hp
    by_cases hlh : l > h
    · rw [if_pos hlh] at hp
      simp at hp
    · rw [if_neg hlh] at hp
      dsimp only at hp
      by_cases hveq : arr.getD (l + (h - l) / 2).toNat 0 = t
      · rw [if_pos hveq] at hp
        simp at hp
        rw [hp]
        dsimp only
        omega
      · rw [if_neg hveq] at hp
        by_cases hvlt : arr.getD (l + (h - l) / 2).toNat 0 < t
        · rw [if_pos hvlt] at hp
          dsimp only at hp
          rcases List.mem_cons.mp hp with hp1 | hp2
          · rw [hp1]
            dsimp only
            omega
          · exact ih (l + (h - l) / 2 + 1) h (by omega) p hp2
        · rw [if_neg hvlt] at hp
          dsimp only at hp
          rcases List.mem_cons.mp hp with hp1 | hp2
          · rw [hp1]
            dsimp only
            omega
          · exact ih l (l + (h - l) / 2 - 1) (by omega) p hp2

/-- C7: throughout every binary-search animation run, the display-state
invariant `low ≤ high` holds for every `(low, high)` pair handed to the
state setters (they fire only on iterations with `l ≤ h`; the `l > h` case
exits without updating the display), and the initial display values `0`
and `length - 1` also satisfy it. -/
theorem claim_C7 :
    (∀ (arr : List Int) (t l h : Int) (p : Int × Int),
      p ∈ (BinarySearchModule.search arr t l h).display → p.1 ≤ p.2) ∧
    (0 : Int) ≤ (BinarySearchModule.sortedArray.length : Int) - 1 := by
  constructor
  · intro arr t l h p hp
    exact search_display_le arr t (h + 1 - l).toNat l h (le_refl _) p hp
  · decide

/-- Witness for C7 at the first display pair of a concrete run. -/
theorem claim_C7_witness :
    ((0 : Int), (15 : Int)).1 ≤ ((0 : Int), (15 : Int)).2 :=
  claim_C7.1 BinarySearchModule.sortedArray 67 0 15 (0, 15)
    (by simp [BinarySearchModule.search, BinarySearchModule.sortedArray])

end DSAHub
